import Mathlib

/-!
Verification of the depth-to-tracked-entity pipeline of the interactive
Kinect Halloween art installation.

The development shallowly embeds the core pipeline functions of the
repository — the depth normalizer (`normalize_depth` in
`working_ghost_tracker.py`, `ghost_tracker_fixed.py`,
`video_ghosting_effect.py`, `particle_ghosting_effect.py`), the blob
extractor (`find_all_person_blobs`), the identity tracker
(`track_people`), the silhouette trail buffer
(`add_silhouette_to_trail`) and the fade-cycle opacity evaluator
(`get_current_opacity`) — and proves or refutes the specified properties
about them.

Modelling conventions:
* numpy float arithmetic is modelled exactly over `ℚ` (the facts proved
  or refuted here are robust to float32 rounding error); IEEE NaN is
  modelled explicitly with `Option ℚ` (`none` = NaN), matching the
  `d[d <= 0] = np.nan` / `d[np.isnan(d)] = 0` idiom of the scripts;
* the `astype(np.uint8)` cast and Python `int()` truncate toward zero —
  modelled by `pyInt` below — followed by a mod-256 wrap for the uint8
  case;
* `np.sqrt` is strictly monotone, so every comparison the tracker makes
  between euclidean distances (and against the threshold `100`) is
  carried out on squared distances (threshold `10000`) without changing
  any branch taken;
* per-pixel numpy array operations are modelled on a single pixel;
* wall-clock based opacity fading is modelled over `ℝ` with `Real.sin`,
  and Python float `%` (for a positive modulus) as `x - y * ⌊x / y⌋`.
-/

namespace KinectArt

/-- Truncation toward zero, the semantics of Python `int()` on a float and
of the C-style cast behind `astype`. -/
def pyInt (q : ℚ) : ℤ :=
  if q < 0 then ⌈q⌉ else ⌊q⌋

/-! ## Depth normalizer

`normalize_depth` (identical in `working_ghost_tracker.py:180-189`,
`ghost_tracker_fixed.py:116-125`, `video_ghosting_effect.py:400-409` and
`particle_ghosting_effect.py:694-702`):

```python
d = depth_mm.copy().astype(np.float32)
d[d <= 0] = np.nan
near, far = float(self.depth_min), float(self.depth_max)
d = np.clip(d, near, far)
d = (d - near) / (far - near)  # 0..1
d = (1.0 - d) * 255.0          # invert so near = bright
d[np.isnan(d)] = 0
return d.astype(np.uint8)
```
-/

/-- One pixel of `normalize_depth`.  `none` models NaN: a reading `≤ 0`
becomes NaN, `np.clip` keeps NaN, and when `far = near` the clipped pixel
equals `near` so the division is `0/0 = NaN`; at the end NaN is replaced
by `0`.  `np.clip(a, lo, hi)` is `min hi (max a lo)`.  The final uint8
cast truncates toward zero and wraps mod 256. -/
def normalize_depth_px (near far raw : ℚ) : ℕ :=
  let d0 : Option ℚ := if raw ≤ 0 then none else some raw
  let d1 : Option ℚ := d0.map (fun d => min far (max d near))
  let d2 : Option ℚ := d1.bind (fun d =>
    if far = near then none else some ((d - near) / (far - near)))
  let d3 : Option ℚ := d2.map (fun d => (1 - d) * 255)
  (pyInt (d3.getD 0)).toNat % 256

/-- The normalizer formula exactly as the specification words it:
`round((1 - (clamped_depth - depth_min) / (depth_max - depth_min)) * 255)`
for readings `> 0`, and `0` for readings `≤ 0`.  Used only to compare the
spec's claimed formula against the code. -/
def normalize_spec_round (near far raw : ℚ) : ℤ :=
  if raw ≤ 0 then 0
  else round ((1 - (max near (min raw far) - near) / (far - near)) * 255)

/-! ## Silhouette trail buffer

`add_silhouette_to_trail` (`video_ghosting_effect.py:412-418`,
`particle_ghosting_effect.py:704-710`), with
`self.ghost_trail_length = 5`:

```python
self.ghost_trails.append(silhouette.copy())
if len(self.ghost_trails) > self.ghost_trail_length:
    self.ghost_trails.pop(0)
```
-/

/-- One `push` on the silhouette trail: append, then drop the oldest
entry when the bound is exceeded.  The mask type is abstract; `copy()`
is the identity on immutable values. -/
def add_silhouette_to_trail {α : Type} (ghost_trail_length : ℕ)
    (trails : List α) (silhouette : α) : List α :=
  let t := trails ++ [silhouette]
  if ghost_trail_length < t.length then t.drop 1 else t

/-! ## Depth normalizer lemmas -/

/-- Closed form of the normalizer on a strictly positive reading with a
non-degenerate band: no NaN is produced anywhere in the pipeline. -/
theorem norm_px_pos (near far raw : ℚ) (hraw : 0 < raw) (hne : far ≠ near) :
    normalize_depth_px near far raw =
      (pyInt ((1 - (min far (max raw near) - near) / (far - near)) * 255)).toNat % 256 := by
  simp [normalize_depth_px, hraw.not_le, hne]

/-- A reading `≤ 0` is turned into NaN and finally into intensity `0`. -/
theorem norm_px_nonpos (near far raw : ℚ) (hraw : raw ≤ 0) :
    normalize_depth_px near far raw = 0 := by
  simp [normalize_depth_px, hraw, pyInt]

/-- The two orders of clamping agree when the band is ordered. -/
theorem clip_comm (near far a : ℚ) (h : near ≤ far) :
    min far (max a near) = max near (min a far) := by
  simp only [min_def, max_def]
  split_ifs <;> linarith

/-- The clamped reading stays inside the band. -/
theorem clip_mem (near far raw : ℚ) (h : near ≤ far) :
    near ≤ min far (max raw near) ∧ min far (max raw near) ≤ far :=
  ⟨le_min h (le_max_right raw near), min_le_left far (max raw near)⟩

/-- The pre-cast intensity value lies in `[0, 255]`. -/
theorem norm_val_bounds (near far raw : ℚ) (hlt : near < far) :
    0 ≤ (1 - (min far (max raw near) - near) / (far - near)) * 255 ∧
      (1 - (min far (max raw near) - near) / (far - near)) * 255 ≤ 255 := by
  obtain ⟨hc1, hc2⟩ := clip_mem near far raw hlt.le
  have hd : (0:ℚ) < far - near := sub_pos.2 hlt
  have ht0 : 0 ≤ (min far (max raw near) - near) / (far - near) :=
    div_nonneg (sub_nonneg.2 hc1) hd.le
  have ht1 : (min far (max raw near) - near) / (far - near) ≤ 1 :=
    (div_le_one hd).2 (sub_le_sub_right hc2 near)
  constructor
  · nlinarith
  · nlinarith

/-- C3 counterexample input: the band `depth_min = 0 < depth_max = 4500`
satisfies the claim's hypothesis `depth_min < depth_max`, yet a raw
reading equal to `depth_min` takes the `raw ≤ 0 → NaN → 0` path and
produces intensity `0`, not the claimed `255` (which also contradicts
the claim's own `normalize(0) = 0` clause at this band). -/
theorem C3_counterexample :
    (0:ℚ) < 4500 ∧ normalize_depth_px 0 4500 0 = 0 ∧ normalize_depth_px 0 4500 0 ≠ 255 := by
  refine ⟨by norm_num, ?_, ?_⟩ <;> rw [norm_px_nonpos 0 4500 0 le_rfl]
  decide

/-- C3 (amended): for every band with `0 < depth_min < depth_max` the
normalizer maps a reading at `depth_min` to `255`, a reading at
`depth_max` to `0`, and the no-reading value `0` to `0`. -/
theorem C3_normalize_boundary (near far : ℚ) (h0 : 0 < near) (hlt : near < far) :
    normalize_depth_px near far near = 255 ∧
    normalize_depth_px near far far = 0 ∧
    normalize_depth_px near far 0 = 0 := by
  have hne : far ≠ near := ne_of_gt hlt
  refine ⟨?_, ?_, norm_px_nonpos near far 0 le_rfl⟩
  · rw [norm_px_pos near far near h0 hne, max_self, min_eq_right hlt.le]
    rw [sub_self, zero_div, sub_zero, one_mul]
    norm_num [pyInt]
    decide
  · rw [norm_px_pos near far far (h0.trans hlt) hne, max_eq_left hlt.le, min_self,
      div_self (sub_ne_zero.2 hne)]
    norm_num [pyInt]

/-- Witness for `C3_normalize_boundary` at the spec's scenario band
`depth_min = 500`, `depth_max = 4500`. -/
theorem C3_witness :
    (0:ℚ) < 500 ∧ (500:ℚ) < 4500 ∧
      (normalize_depth_px 500 4500 500 = 255 ∧
       normalize_depth_px 500 4500 4500 = 0 ∧
       normalize_depth_px 500 4500 0 = 0) :=
  ⟨by norm_num, by norm_num, C3_normalize_boundary 500 4500 (by norm_num) (by norm_num)⟩

/-- C4 counterexample: at the band `[500, 4500]` and raw depth `501` the
exact value is `254.93625`; the code's uint8 cast truncates it to `254`
while the spec's claimed `round` gives `255`. -/
theorem C4_counterexample :
    normalize_depth_px 500 4500 501 = 254 ∧ normalize_spec_round 500 4500 501 = 255 := by
  constructor
  · norm_num [normalize_depth_px, pyInt]
    decide
  · rw [show normalize_spec_round 500 4500 501 = round ((203949:ℚ) / 800) by
      norm_num [normalize_spec_round]]
    rw [round_eq]
    norm_num

/-- C4 (amended): for `depth_min < depth_max` a reading `≤ 0` maps to
`0`, and a reading `> 0` maps to the floor (truncation) — not the
rounding — of `(1 - (clamped - depth_min) / (depth_max - depth_min)) * 255`
with the reading clamped into the band. -/
theorem C4_normalize_formula (near far raw : ℚ) (hlt : near < far) :
    (raw ≤ 0 → normalize_depth_px near far raw = 0) ∧
    (0 < raw → normalize_depth_px near far raw =
      (⌊(1 - (max near (min raw far) - near) / (far - near)) * 255⌋).toNat) := by
  refine ⟨norm_px_nonpos near far raw, fun hraw => ?_⟩
  rw [norm_px_pos near far raw hraw (ne_of_gt hlt), ← clip_comm near far raw hlt.le]
  obtain ⟨hv0, hv255⟩ := norm_val_bounds near far raw hlt
  set v : ℚ := (1 - (min far (max raw near) - near) / (far - near)) * 255 with hv
  have hpy : pyInt v = ⌊v⌋ := by rw [pyInt, if_neg (not_lt.2 hv0)]
  have hfl : ⌊v⌋ ≤ 255 := by
    have h1 : (⌊v⌋ : ℚ) ≤ 255 := (Int.floor_le v).trans hv255
    exact_mod_cast h1
  have hlt256 : (⌊v⌋).toNat < 256 := by omega
  rw [hpy, Nat.mod_eq_of_lt hlt256]

/-- Witness for `C4_normalize_formula` at band `[500, 4500]`, readings
`-3` (invalid) and `600` (valid). -/
theorem C4_witness :
    ((-3:ℚ) ≤ 0 → normalize_depth_px 500 4500 (-3) = 0) ∧
    ((0:ℚ) < 600 → normalize_depth_px 500 4500 600 =
      (⌊(1 - (max 500 (min 600 4500) - 500) / (4500 - 500 : ℚ)) * 255⌋).toNat) :=
  ⟨(C4_normalize_formula 500 4500 (-3) (by norm_num)).1,
   (C4_normalize_formula 500 4500 600 (by norm_num)).2⟩

/-- C5: with the degenerate band `depth_max = depth_min = 500` the code
does not fail fast; the division is `0/0 = NaN`, the NaN is silently
replaced by `0`, and a perfectly valid reading of `500` mm comes out as
intensity `0`.  The spec calls this silent degradation a defect of the
reference scripts; the code contradicts the claimed fail-fast behavior. -/
theorem C5_degenerate_band_silent_zero :
    normalize_depth_px 500 500 500 = 0 := by
  norm_num [normalize_depth_px, pyInt]

/-! ## Silhouette trail lemmas -/

/-- Folding pushes over the empty trail leaves exactly the most recent
`L` masks: the buffer equals the pushed sequence with all but the last
`L` entries dropped. -/
theorem trail_foldl_eq_drop {α : Type} (L : ℕ) (ms : List α) :
    ms.foldl (add_silhouette_to_trail L) [] = ms.drop (ms.length - L) := by
  induction ms using List.reverseRecOn with
  | nil => simp
  | append_singleton ms m ih =>
    rw [List.foldl_append, List.foldl_cons, List.foldl_nil, ih, add_silhouette_to_trail]
    simp only [List.length_append, List.length_singleton, List.length_drop]
    split_ifs with hc
    · have hLle : L ≤ ms.length := by omega
      rcases Nat.eq_zero_or_pos L with h0 | hpos
      · subst h0
        simp [List.drop_length, List.drop_eq_nil_of_le, List.length_append]
      · have hlen1 : 1 ≤ (ms.drop (ms.length - L)).length := by
          rw [List.length_drop]; omega
        rw [List.drop_append_of_le_length hlen1, List.drop_drop,
          List.drop_append_of_le_length (show ms.length + 1 - L ≤ ms.length by omega),
          show ms.length - L + 1 = ms.length + 1 - L by omega]
    · have h1 : ms.length - L = 0 := by omega
      have h2 : ms.length + 1 - L = 0 := by omega
      rw [h1, h2, List.drop_zero, List.drop_zero]

/-- C7: the trail buffer with bound `ghost_trail_length = 5` never holds
more than five masks, and after pushing `5 + k` masks it holds exactly
the last five pushed masks, oldest first. -/
theorem C7_trail_bounded_fifo {α : Type} (ms : List α) :
    (ms.foldl (add_silhouette_to_trail 5) []).length ≤ 5 ∧
    (∀ k : ℕ, ms.length = 5 + k →
      ms.foldl (add_silhouette_to_trail 5) [] = ms.drop k) := by
  rw [trail_foldl_eq_drop 5 ms]
  constructor
  · rw [List.length_drop]; omega
  · intro k hk
    congr 1
    omega

/-- Witness for `C7_trail_bounded_fifo`: pushing the six masks
`0,…,5` (with `k = 1`) leaves exactly the last five. -/
theorem C7_witness :
    (([0, 1, 2, 3, 4, 5] : List ℕ).foldl (add_silhouette_to_trail 5) []).length ≤ 5 ∧
    ([0, 1, 2, 3, 4, 5] : List ℕ).foldl (add_silhouette_to_trail 5) [] =
      ([0, 1, 2, 3, 4, 5] : List ℕ).drop 1 :=
  ⟨(C7_trail_bounded_fifo [0, 1, 2, 3, 4, 5]).1,
   (C7_trail_bounded_fifo [0, 1, 2, 3, 4, 5]).2 1 (by decide)⟩

/-! ## Blob extractor

`find_all_person_blobs` (`ghost_tracker_fixed.py:127-155`; the copies in
`video_ghosting_effect.py:477-510` and `particle_ghosting_effect.py`
additionally call `track_people` on the result):

```python
person_blobs = []
for contour in contours:
    area = cv2.contourArea(contour)
    if area > 5000:
        M = cv2.moments(contour)
        if M["m00"] > 0:
            cx = int(M["m10"] / M["m00"])
            cy = int(M["m01"] / M["m00"])
            if 0 <= cy < depth.shape[0] and 0 <= cx < depth.shape[1]:
                blob_depth = depth[cy, cx]
                person_blobs.append((cx, cy, blob_depth, contour))
person_blobs.sort(key=lambda x: cv2.contourArea(x[3]), reverse=True)
```

`cv2.findContours`, `cv2.contourArea` and `cv2.moments` are external
library calls; a contour is modelled by the data the script reads off
it: its `contourArea` and its spatial moments `m00`, `m10`, `m01`.
Python's `list.sort` is a stable sort; `reverse=True` with a key is a
stable sort w.r.t. the flipped key comparison, and a stable sort is
uniquely determined by its comparison, so it is modelled by the
(stable, structurally recursive) `List.insertionSort`. -/

/-- The data the script reads off a `cv2` contour. -/
structure Contour where
  area : ℚ
  m00 : ℚ
  m10 : ℚ
  m01 : ℚ
deriving DecidableEq

/-- A depth frame: `shape = (rows, cols)` and a per-pixel reading
`depthAt row col`. -/
structure DepthFrame where
  rows : ℕ
  cols : ℕ
  depthAt : ℕ → ℕ → ℚ

/-- A per-frame blob observation.  The scripts pass blobs around as 4- or
5-tuples `(cx, cy, blob_depth, contour[, person_id])`; the optional fifth
component is `pid`. -/
structure Blob where
  cx : ℤ
  cy : ℤ
  blob_depth : ℚ
  contour : Contour
  pid : Option ℕ
deriving DecidableEq

/-- The loop body of `find_all_person_blobs`: area filter, positive-mass
check, truncated centroid, bounds check, depth lookup. -/
def centroid_blob (depth : DepthFrame) (c : Contour) : Option Blob :=
  if 5000 < c.area then
    if 0 < c.m00 then
      let cx := pyInt (c.m10 / c.m00)
      let cy := pyInt (c.m01 / c.m00)
      if 0 ≤ cy ∧ cy < (depth.rows : ℤ) ∧ 0 ≤ cx ∧ cx < (depth.cols : ℤ) then
        some ⟨cx, cy, depth.depthAt cy.toNat cx.toNat, c, none⟩
      else none
    else none
  else none

/-- `find_all_person_blobs`: filter contours into blobs in input order,
then stable-sort descending by contour area. -/
def find_all_person_blobs (depth : DepthFrame) (contours : List Contour) : List Blob :=
  List.insertionSort (fun a b => b.contour.area ≤ a.contour.area)
    (contours.filterMap (centroid_blob depth))

/-- C8 counterexample: two contours of equal area `6000` both pass the
filter; the stable sort keeps them in input order, so the output is not
strictly descending by area. -/
theorem C8_counterexample :
    ¬ List.Pairwise (fun a b => b.contour.area < a.contour.area)
      (find_all_person_blobs ⟨480, 640, fun _ _ => 1200⟩
        [⟨6000, 10, 500, 500⟩, ⟨6000, 10, 1000, 1000⟩]) := by
  have h : find_all_person_blobs ⟨480, 640, fun _ _ => 1200⟩
        [⟨6000, 10, 500, 500⟩, ⟨6000, 10, 1000, 1000⟩] =
      [⟨50, 50, 1200, ⟨6000, 10, 500, 500⟩, none⟩,
       ⟨100, 100, 1200, ⟨6000, 10, 1000, 1000⟩, none⟩] := by
    norm_num [find_all_person_blobs, centroid_blob, pyInt, List.filterMap,
      List.insertionSort, List.orderedInsert]
  rw [h]
  simp [List.pairwise_cons]

/-- C8 (amended): for every depth frame and contour list the blob list is
sorted (non-strictly) descending by area: each element's area is at least
the next element's area.  Strictness fails exactly on ties, which the
stable sort leaves in input order. -/
theorem C8_blobs_sorted_desc (depth : DepthFrame) (contours : List Contour) :
    List.Pairwise (fun a b => b.contour.area ≤ a.contour.area)
      (find_all_person_blobs depth contours) := by
  letI : IsTotal Blob (fun a b => b.contour.area ≤ a.contour.area) :=
    ⟨fun a b => le_total b.contour.area a.contour.area⟩
  letI : IsTrans Blob (fun a b => b.contour.area ≤ a.contour.area) :=
    ⟨fun _ _ _ hab hbc => hbc.trans hab⟩
  exact List.sorted_insertionSort (fun a b => b.contour.area ≤ a.contour.area)
    (contours.filterMap (centroid_blob depth))

/-! ## Identity tracker

`track_people` (`video_ghosting_effect.py:421-475`, identical in
`particle_ghosting_effect.py:713-767`):

```python
matched = [False] * len(current_blobs)
for prev_id, prev_blob in enumerate(self.previous_blobs):
    px, py = prev_blob['center']
    min_dist = float('inf')
    best_match = None
    for i, blob_data in enumerate(current_blobs):
        if matched[i]:
            continue
        cx, cy, blob_depth, contour = ...  # 4- or 5-tuple unpack
        dist = np.sqrt((cx - px)**2 + (cy - py)**2)
        if dist < min_dist and dist < 100:
            min_dist = dist
            best_match = i
    if best_match is not None:
        matched[best_match] = True
        current_blobs[best_match] = (cx, cy, blob_depth, contour, prev_blob['id'])
for i, is_matched in enumerate(matched):
    if not is_matched:
        self.person_counter += 1
        current_blobs[i] = (cx, cy, blob_depth, contour, self.person_counter)
self.previous_blobs = [{'center': (cx, cy), 'id': pid} for cx, cy, _, _, pid in current_blobs]
return current_blobs
```

All distance comparisons (between two distances and against the
threshold `100`) go through the strictly monotone `np.sqrt`, so they are
modelled on squared distances with squared threshold `10000`. -/

/-- An entry of `self.previous_blobs`: a dict `{'center': (cx, cy), 'id': pid}`. -/
structure PrevBlob where
  center : ℤ × ℤ
  id : ℕ
deriving DecidableEq

/-- The tracker's cross-frame state: `self.previous_blobs` and
`self.person_counter`. -/
structure TrackState where
  previous_blobs : List PrevBlob
  person_counter : ℕ

/-- Centroid of a blob. -/
def Blob.center (b : Blob) : ℤ × ℤ := (b.cx, b.cy)

/-- The geometric payload of a blob: everything except the attached id. -/
def Blob.geom (b : Blob) : ℤ × ℤ × ℚ × Contour := (b.cx, b.cy, b.blob_depth, b.contour)

/-- Squared euclidean distance between two centroids. -/
def dist2 (p q : ℤ × ℤ) : ℤ := (q.1 - p.1) ^ 2 + (q.2 - p.2) ^ 2

/-- In-place update `current_blobs[i] = (cx, cy, blob_depth, contour, pid)`:
only the identity component changes. -/
def set_pid (pid : ℕ) : ℕ → List Blob → List Blob
  | _, [] => []
  | 0, b :: bs => ⟨b.cx, b.cy, b.blob_depth, b.contour, some pid⟩ :: bs
  | i + 1, b :: bs => b :: set_pid pid i bs

/-- The inner-loop update of `(min_dist, best_match)` for one candidate
blob `b` at index `i`: `acc = none` is `min_dist = inf, best_match =
None`, in which case `dist < min_dist` always holds, so only the
threshold test remains. -/
def upd_acc (p : ℤ × ℤ) (b : Blob) (i : ℕ) : Option (ℤ × ℕ) → Option (ℤ × ℕ)
  | none => if dist2 p b.center < 10000 then some (dist2 p b.center, i) else none
  | some md =>
    if dist2 p b.center < md.1 ∧ dist2 p b.center < 10000 then
      some (dist2 p b.center, i)
    else some md

/-- The inner loop: scan the current blobs from index `i` keeping the
closest unmatched blob strictly within the threshold. -/
def find_best (p : ℤ × ℤ) (matched : ℕ → Bool) :
    List Blob → ℕ → Option (ℤ × ℕ) → Option (ℤ × ℕ)
  | [], _, acc => acc
  | b :: bs, i, acc =>
    if matched i then find_best p matched bs (i + 1) acc
    else find_best p matched bs (i + 1) (upd_acc p b i acc)

/-- The outer loop over `self.previous_blobs`: each previous entity
claims its best match, which is marked consumed and stamped with the
entity's id. -/
def match_prevs : List PrevBlob → List Blob → (ℕ → Bool) → List Blob × (ℕ → Bool)
  | [], bs, matched => (bs, matched)
  | p :: ps, bs, matched =>
    match find_best p.center matched bs 0 none with
    | none => match_prevs ps bs matched
    | some md =>
      match_prevs ps (set_pid p.id md.2 bs) (fun j => if j = md.2 then true else matched j)

/-- The second loop: every still-unmatched blob gets a brand-new id from
the incremented monotonic counter. -/
def assign_new : List Blob → (ℕ → Bool) → ℕ → ℕ → List Blob × ℕ
  | [], _, _, counter => ([], counter)
  | b :: bs, matched, i, counter =>
    if matched i then
      let r := assign_new bs matched (i + 1) counter
      (b :: r.1, r.2)
    else
      let r := assign_new bs matched (i + 1) (counter + 1)
      (⟨b.cx, b.cy, b.blob_depth, b.contour, some (counter + 1)⟩ :: r.1, r.2)

/-- `track_people`: match, assign fresh ids, rebuild
`self.previous_blobs` from the result, return the updated blob list.
After both phases every blob carries an id, so the `getD 0` fallback in
the state rebuild (Python unpacks a 5-tuple there) is never exercised. -/
def track_people (st : TrackState) (current_blobs : List Blob) : TrackState × List Blob :=
  let m := match_prevs st.previous_blobs current_blobs (fun _ => false)
  let a := assign_new m.1 m.2 0 st.person_counter
  (⟨a.1.map (fun b => ⟨b.center, b.pid.getD 0⟩), a.2⟩, a.1)

/-- C1 counterexample: entities `1` at `(0,0)` and `2` at `(20,0)`; the
physical track of entity `2` moves one pixel to `(19,0)` (well below the
threshold), while entity `1`'s blob reappears at `(60,0)`.  Entity `1`
is processed first and steals the blob at `(19,0)` (it is `1`'s closest
unmatched blob within `100`), so the track of entity `2` comes out
carrying id `1`: the id of a continuously-tracked sub-threshold track
changed. -/
theorem C1_counterexample :
    dist2 ((20:ℤ), (0:ℤ)) ((19:ℤ), (0:ℤ)) < 10000 ∧
    ((track_people ⟨[⟨(0, 0), 1⟩, ⟨(20, 0), 2⟩], 2⟩
        [⟨19, 0, 1000, ⟨6000, 10, 500, 500⟩, none⟩,
         ⟨60, 0, 1000, ⟨6000, 10, 500, 500⟩, none⟩]).2.get? 0).map Blob.pid =
      some (some 1) := by
  constructor
  · decide
  · rfl

/-! ### Lemmas about `set_pid` -/

theorem set_pid_length (pid i : ℕ) (bs : List Blob) :
    (set_pid pid i bs).length = bs.length := by
  induction bs generalizing i with
  | nil => cases i <;> rfl
  | cons b bs ih =>
    cases i with
    | zero => rfl
    | succ i => simp [set_pid, ih]

theorem set_pid_get_ne (pid i : ℕ) (bs : List Blob) (j : ℕ) (h : j ≠ i) :
    (set_pid pid i bs).get? j = bs.get? j := by
  induction bs generalizing i j with
  | nil => cases i <;> rfl
  | cons b bs ih =>
    cases i with
    | zero =>
      cases j with
      | zero => exact absurd rfl h
      | succ j => rfl
    | succ i =>
      cases j with
      | zero => rfl
      | succ j => simpa [set_pid] using ih (i := i) (j := j) (fun hji => h (by omega))

theorem set_pid_get_eq (pid i : ℕ) (bs : List Blob) (b : Blob)
    (h : bs.get? i = some b) :
    (set_pid pid i bs).get? i = some ⟨b.cx, b.cy, b.blob_depth, b.contour, some pid⟩ := by
  induction bs generalizing i with
  | nil => simp at h
  | cons hd bs ih =>
    cases i with
    | zero =>
      simp only [List.get?_cons_zero] at h
      cases h
      rfl
    | succ i => simpa [set_pid] using ih i h

/-- `set_pid` preserves the geometry (and hence centroid) at every index. -/
theorem set_pid_geom (pid i : ℕ) (bs : List Blob) (j : ℕ) :
    ((set_pid pid i bs).get? j).map Blob.geom = (bs.get? j).map Blob.geom := by
  by_cases h : j = i
  · subst h
    cases hb : bs.get? j with
    | none =>
      have hlen : bs.length ≤ j := List.get?_eq_none.1 hb
      rw [List.get?_eq_none.2 (by rw [set_pid_length]; exact hlen)]
    | some b =>
      rw [set_pid_get_eq pid j bs b hb]
      rfl
  · rw [set_pid_get_ne pid i bs j h]

/-- Equal geometry means equal centroid. -/
theorem geom_center {b b' : Blob} (h : b.geom = b'.geom) : b.center = b'.center := by
  cases b; cases b'
  simp only [Blob.geom, Prod.mk.injEq] at h
  simp [Blob.center, h.1, h.2.1]

/-! ### Lemmas about `find_best` -/

theorem find_best_nil (p : ℤ × ℤ) (matched : ℕ → Bool) (i : ℕ) (acc : Option (ℤ × ℕ)) :
    find_best p matched [] i acc = acc := rfl

theorem find_best_cons (p : ℤ × ℤ) (matched : ℕ → Bool) (b : Blob) (bs : List Blob)
    (i : ℕ) (acc : Option (ℤ × ℕ)) :
    find_best p matched (b :: bs) i acc =
      if matched i then find_best p matched bs (i + 1) acc
      else find_best p matched bs (i + 1) (upd_acc p b i acc) := rfl

/-- Every selection made by the inner scan is a genuine unmatched blob of
the list strictly within the threshold; the result is either such a
selection or the accumulator passed in. -/
theorem find_best_sel (p : ℤ × ℤ) (matched : ℕ → Bool) (bs : List Blob) (i : ℕ)
    (acc : Option (ℤ × ℕ)) (md : ℤ × ℕ)
    (h : find_best p matched bs i acc = some md) :
    acc = some md ∨ ∃ j b, bs.get? j = some b ∧ md.2 = i + j ∧ matched (i + j) = false ∧
      md.1 = dist2 p b.center ∧ md.1 < 10000 := by
  induction bs generalizing i acc with
  | nil => exact Or.inl h
  | cons b bs ih =>
    rw [find_best_cons] at h
    by_cases hm : matched i
    · rw [if_pos hm] at h
      rcases ih (i + 1) acc h with h1 | ⟨j, b', hj, h2, h3, h4, h5⟩
      · exact Or.inl h1
      · exact Or.inr ⟨j + 1, b', by simpa using hj, by omega,
          by rw [show i + (j + 1) = i + 1 + j by omega]; exact h3, h4, h5⟩
    · rw [if_neg hm] at h
      rcases ih (i + 1) (upd_acc p b i acc) h with h1 | ⟨j, b', hj, h2, h3, h4, h5⟩
      · cases acc with
        | none =>
          rw [upd_acc] at h1
          by_cases hd : dist2 p b.center < 10000
          · rw [if_pos hd] at h1
            obtain rfl : (dist2 p b.center, i) = md := Option.some.inj h1
            exact Or.inr ⟨0, b, rfl, by simp,
              by simp only [Nat.add_zero]; exact Bool.eq_false_iff.mpr hm, rfl, hd⟩
          · rw [if_neg hd] at h1
            exact absurd h1 (by simp)
        | some md0 =>
          rw [upd_acc] at h1
          by_cases hd : dist2 p b.center < md0.1 ∧ dist2 p b.center < 10000
          · rw [if_pos hd] at h1
            obtain rfl : (dist2 p b.center, i) = md := Option.some.inj h1
            exact Or.inr ⟨0, b, rfl, by simp,
              by simp only [Nat.add_zero]; exact Bool.eq_false_iff.mpr hm, rfl, hd.2⟩
          · rw [if_neg hd] at h1
            exact Or.inl h1
      · exact Or.inr ⟨j + 1, b', by simpa using hj, by omega,
          by rw [show i + (j + 1) = i + 1 + j by omega]; exact h3, h4, h5⟩

/-- When every blob of the list is at least the threshold away, the scan
never updates its accumulator. -/
theorem find_best_allfar (p : ℤ × ℤ) (matched : ℕ → Bool) (bs : List Blob) (i : ℕ)
    (acc : Option (ℤ × ℕ))
    (hfar : ∀ j b, bs.get? j = some b → ¬ dist2 p b.center < 10000) :
    find_best p matched bs i acc = acc := by
  induction bs generalizing i acc with
  | nil => rfl
  | cons b bs ih =>
    rw [find_best_cons]
    have hb0 : ¬ dist2 p b.center < 10000 := hfar 0 b rfl
    have hfar' : ∀ j b', bs.get? j = some b' → ¬ dist2 p b'.center < 10000 :=
      fun j b' hj => hfar (j + 1) b' (by simpa using hj)
    by_cases hm : matched i
    · rw [if_pos hm]
      exact ih (i + 1) acc hfar'
    · rw [if_neg hm]
      have hupd : upd_acc p b i acc = acc := by
        cases acc with
        | none => rw [upd_acc, if_neg hb0]
        | some md0 => rw [upd_acc, if_neg (fun hc => hb0 hc.2)]
      rw [hupd]
      exact ih (i + 1) acc hfar'

/-- When exactly one blob (at index `jt`, unmatched) is within the
threshold of `p`, the scan returns precisely that blob with its
distance. -/
theorem find_best_exact (p : ℤ × ℤ) (matched : ℕ → Bool) (bs : List Blob) :
    ∀ (i jt : ℕ) (b_t : Blob) (acc : Option (ℤ × ℕ)),
    bs.get? jt = some b_t → matched (i + jt) = false →
    dist2 p b_t.center < 10000 →
    (∀ j b, bs.get? j = some b → j ≠ jt → ¬ dist2 p b.center < 10000) →
    (acc = none ∨ acc = some (dist2 p b_t.center, i + jt)) →
    find_best p matched bs i acc = some (dist2 p b_t.center, i + jt) := by
  induction bs with
  | nil => intro i jt b_t acc hget; simp at hget
  | cons b bs ih =>
    intro i jt b_t acc hget hm hd hfar hacc
    rw [find_best_cons]
    cases jt with
    | zero =>
      obtain rfl : b = b_t := by simpa using hget
      have hm0 : matched i = false := by simpa using hm
      rw [if_neg (by simp [hm0])]
      have hupd : upd_acc p b i acc = some (dist2 p b.center, i + 0) := by
        rcases hacc with rfl | rfl
        · rw [upd_acc, if_pos hd]
          simp
        · rw [upd_acc, if_neg (fun hc => lt_irrefl _ hc.1)]
      rw [hupd]
      exact find_best_allfar p matched bs (i + 1) _
        (fun j b' hj => hfar (j + 1) b' (by simpa using hj) (by omega))
    | succ jt' =>
      have hb0 : ¬ dist2 p b.center < 10000 := hfar 0 b rfl (by omega)
      have hget' : bs.get? jt' = some b_t := by simpa using hget
      have hidx : i + (jt' + 1) = i + 1 + jt' := by omega
      have hm' : matched (i + 1 + jt') = false := by rw [← hidx]; exact hm
      have hfar' : ∀ j b', bs.get? j = some b' → j ≠ jt' → ¬ dist2 p b'.center < 10000 :=
        fun j b' hj hne => hfar (j + 1) b' (by simpa using hj) (by omega)
      rw [hidx] at hacc ⊢
      by_cases hmi : matched i
      · rw [if_pos hmi]
        exact ih (i + 1) jt' b_t acc hget' hm' hd hfar' hacc
      · rw [if_neg hmi]
        have hupd : upd_acc p b i acc = acc := by
          rcases hacc with rfl | rfl
          · rw [upd_acc, if_neg hb0]
          · rw [upd_acc, if_neg (fun hc => hb0 hc.2)]
        rw [hupd]
        exact ih (i + 1) jt' b_t acc hget' hm' hd hfar' hacc

/-! ### Lemmas about `match_prevs` -/

theorem match_prevs_nil (bs : List Blob) (m : ℕ → Bool) :
    match_prevs [] bs m = (bs, m) := rfl

theorem match_prevs_cons (p : PrevBlob) (ps : List PrevBlob) (bs : List Blob) (m : ℕ → Bool) :
    match_prevs (p :: ps) bs m =
      match find_best p.center m bs 0 none with
      | none => match_prevs ps bs m
      | some md =>
        match_prevs ps (set_pid p.id md.2 bs) (fun j => if j = md.2 then true else m j) := rfl

theorem match_prevs_cons_none (p : PrevBlob) (ps : List PrevBlob) (bs : List Blob)
    (m : ℕ → Bool) (hr : find_best p.center m bs 0 none = none) :
    match_prevs (p :: ps) bs m = match_prevs ps bs m := by
  rw [match_prevs_cons, hr]

theorem match_prevs_cons_some (p : PrevBlob) (ps : List PrevBlob) (bs : List Blob)
    (m : ℕ → Bool) (md : ℤ × ℕ) (hr : find_best p.center m bs 0 none = some md) :
    match_prevs (p :: ps) bs m =
      match_prevs ps (set_pid p.id md.2 bs) (fun j => if j = md.2 then true else m j) := by
  rw [match_prevs_cons, hr]

/-- The matching phase preserves the length of the blob list. -/
theorem match_prevs_length (ps : List PrevBlob) (bs : List Blob) (m : ℕ → Bool) :
    (match_prevs ps bs m).1.length = bs.length := by
  induction ps generalizing bs m with
  | nil => rfl
  | cons p ps ih =>
    cases hr : find_best p.center m bs 0 none with
    | none => rw [match_prevs_cons_none p ps bs m hr]; exact ih bs m
    | some md =>
      rw [match_prevs_cons_some p ps bs m md hr]
      rw [ih _ _, set_pid_length]

/-- The matching phase preserves geometry at every index. -/
theorem match_prevs_geom (ps : List PrevBlob) (bs : List Blob) (m : ℕ → Bool) (j : ℕ) :
    ((match_prevs ps bs m).1.get? j).map Blob.geom = (bs.get? j).map Blob.geom := by
  induction ps generalizing bs m with
  | nil => rfl
  | cons p ps ih =>
    cases hr : find_best p.center m bs 0 none with
    | none => rw [match_prevs_cons_none p ps bs m hr]; exact ih bs m
    | some md =>
      rw [match_prevs_cons_some p ps bs m md hr]
      rw [ih _ _, set_pid_geom]

/-- Once a blob is marked consumed it stays consumed. -/
theorem match_prevs_matched_mono (ps : List PrevBlob) (bs : List Blob) (m : ℕ → Bool)
    (t : ℕ) (h : m t = true) : (match_prevs ps bs m).2 t = true := by
  induction ps generalizing bs m with
  | nil => exact h
  | cons p ps ih =>
    cases hr : find_best p.center m bs 0 none with
    | none => rw [match_prevs_cons_none p ps bs m hr]; exact ih bs m h
    | some md =>
      rw [match_prevs_cons_some p ps bs m md hr]
      apply ih
      by_cases ht : t = md.2 <;> simp [ht, h]

/-- A consumed blob is never touched again by later previous entities. -/
theorem match_prevs_keep (ps : List PrevBlob) (bs : List Blob) (m : ℕ → Bool)
    (t : ℕ) (h : m t = true) :
    (match_prevs ps bs m).1.get? t = bs.get? t ∧ (match_prevs ps bs m).2 t = true := by
  induction ps generalizing bs m with
  | nil => exact ⟨rfl, h⟩
  | cons p ps ih =>
    cases hr : find_best p.center m bs 0 none with
    | none => rw [match_prevs_cons_none p ps bs m hr]; exact ih bs m h
    | some md =>
      have hne : md.2 ≠ t := by
        rcases find_best_sel _ _ _ _ _ _ hr with h1 | ⟨j, b', _, hidx, hmj, _, _⟩
        · exact absurd h1 (by simp)
        · intro he
          have h2 : m md.2 = false := by rw [hidx]; simpa using hmj
          rw [he, h] at h2
          cases h2
      rw [match_prevs_cons_some p ps bs m md hr]
      have hm' : (fun j => if j = md.2 then true else m j) t = true := by
        by_cases ht : t = md.2 <;> simp [ht, h]
      obtain ⟨h1, h2⟩ :=
        ih (set_pid p.id md.2 bs) (fun j => if j = md.2 then true else m j) hm'
      exact ⟨h1.trans (set_pid_get_ne p.id md.2 bs t (Ne.symm hne)), h2⟩

/-- A blob that is at least the threshold away from every previous
entity is never matched and never modified in the matching phase. -/
theorem match_prevs_far (ps : List PrevBlob) (bs : List Blob) (m : ℕ → Bool) (t : ℕ)
    (hfar : ∀ p' ∈ ps, ∀ b, bs.get? t = some b → ¬ dist2 p'.center b.center < 10000)
    (hm : m t = false) :
    (match_prevs ps bs m).1.get? t = bs.get? t ∧ (match_prevs ps bs m).2 t = false := by
  induction ps generalizing bs m with
  | nil => exact ⟨rfl, hm⟩
  | cons p ps ih =>
    cases hr : find_best p.center m bs 0 none with
    | none =>
      rw [match_prevs_cons_none p ps bs m hr]
      exact ih bs m (fun p' hp' => hfar p' (List.mem_cons_of_mem p hp')) hm
    | some md =>
      rcases find_best_sel _ _ _ _ _ _ hr with h1 | ⟨j, b', hj, hidx, hmj, hd1, hd2⟩
      · exact absurd h1 (by simp)
      · have hjt : md.2 = j := by omega
        have hne : md.2 ≠ t := by
          intro he
          refine hfar p (List.mem_cons_self p ps) b' ?_ ?_
          · have htj : t = j := by omega
            rw [htj]
            exact hj
          · rw [← hd1]
            exact hd2
        rw [match_prevs_cons_some p ps bs m md hr]
        have hget : (set_pid p.id md.2 bs).get? t = bs.get? t :=
          set_pid_get_ne p.id md.2 bs t (Ne.symm hne)
        have hm' : (fun j => if j = md.2 then true else m j) t = false := by
          simp only [if_neg (Ne.symm hne)]
          exact hm
        obtain ⟨h1, h2⟩ := ih (set_pid p.id md.2 bs)
          (fun j => if j = md.2 then true else m j)
          (fun p' hp' b hb => hfar p' (List.mem_cons_of_mem p hp') b (hget ▸ hb)) hm'
        exact ⟨h1.trans hget, h2⟩

/-- The isolated-pair lemma: if entity `e` appears among the previous
entities, the blob at index `t` is strictly within the threshold of `e`,
every other previous entity is at least the threshold away from that
blob, and every other blob is at least the threshold away from `e`, then
the matching phase stamps the blob at `t` with `e.id` and marks it
consumed. -/
theorem match_prevs_iso (e : PrevBlob) (t : ℕ) (ps : List PrevBlob) (bs : List Blob)
    (m : ℕ → Bool) (hmem : e ∈ ps)
    (hex : ∃ b, bs.get? t = some b)
    (hnear : ∀ b, bs.get? t = some b → dist2 e.center b.center < 10000)
    (hprevfar : ∀ p' ∈ ps, p' ≠ e → ∀ b, bs.get? t = some b →
      ¬ dist2 p'.center b.center < 10000)
    (hotherfar : ∀ j b, bs.get? j = some b → j ≠ t → ¬ dist2 e.center b.center < 10000)
    (hm : m t = false) :
    ∃ b, (match_prevs ps bs m).1.get? t = some b ∧ b.pid = some e.id ∧
      (match_prevs ps bs m).2 t = true := by
  induction ps generalizing bs m with
  | nil => cases hmem
  | cons p ps ih =>
    obtain ⟨b_t, hb_t⟩ := hex
    by_cases hpe : p = e
    · subst hpe
      have hr : find_best p.center m bs 0 none = some (dist2 p.center b_t.center, 0 + t) :=
        find_best_exact p.center m bs 0 t b_t none hb_t (by simpa using hm)
          (hnear b_t hb_t) hotherfar (Or.inl rfl)
      rw [match_prevs_cons_some p ps bs m _ hr]
      have hset : (set_pid p.id (dist2 p.center b_t.center, 0 + t).2 bs).get? t =
          some ⟨b_t.cx, b_t.cy, b_t.blob_depth, b_t.contour, some p.id⟩ := by
        simpa using set_pid_get_eq p.id t bs b_t hb_t
      have hm' : (fun j => if j = (dist2 p.center b_t.center, 0 + t).2 then true else m j)
          t = true := by simp
      obtain ⟨h1, h2⟩ := match_prevs_keep ps
        (set_pid p.id (dist2 p.center b_t.center, 0 + t).2 bs)
        (fun j => if j = (dist2 p.center b_t.center, 0 + t).2 then true else m j) t hm'
      exact ⟨_, h1.trans hset, rfl, h2⟩
    · have hmem' : e ∈ ps := by
        rcases List.mem_cons.1 hmem with h | h
        · exact absurd h.symm hpe
        · exact h
      cases hr : find_best p.center m bs 0 none with
      | none =>
        rw [match_prevs_cons_none p ps bs m hr]
        exact ih bs m hmem' ⟨b_t, hb_t⟩ hnear
          (fun p' hp' => hprevfar p' (List.mem_cons_of_mem p hp')) hotherfar hm
      | some md =>
        rcases find_best_sel _ _ _ _ _ _ hr with h1 | ⟨j, b', hj, hidx, hmj, hd1, hd2⟩
        · exact absurd h1 (by simp)
        · have hjt : md.2 = j := by omega
          have hne : md.2 ≠ t := by
            intro he
            refine hprevfar p (List.mem_cons_self p ps) hpe b' ?_ ?_
            · have htj : t = j := by omega
              rw [htj]
              exact hj
            · rw [← hd1]
              exact hd2
          rw [match_prevs_cons_some p ps bs m md hr]
          have hget : (set_pid p.id md.2 bs).get? t = bs.get? t :=
            set_pid_get_ne p.id md.2 bs t (Ne.symm hne)
          have hm' : (fun j => if j = md.2 then true else m j) t = false := by
            simp only [if_neg (Ne.symm hne)]
            exact hm
          refine ih (set_pid p.id md.2 bs) (fun j => if j = md.2 then true else m j)
            hmem' ⟨b_t, hget.symm ▸ hb_t⟩
            (fun b hb => hnear b (hget ▸ hb))
            (fun p' hp' hp'e b hb =>
              hprevfar p' (List.mem_cons_of_mem p hp') hp'e b (hget ▸ hb))
            (fun j' b hb hj' => ?_) hm'
          have hgeom := set_pid_geom p.id md.2 bs j'
          rw [hb] at hgeom
          cases hb0 : bs.get? j' with
          | none => rw [hb0] at hgeom; cases hgeom
          | some b0 =>
            rw [hb0] at hgeom
            have hc : b.center = b0.center := geom_center (Option.some.inj hgeom)
            rw [hc]
            exact hotherfar j' b0 hb0 hj'

/-- If every already-consumed blob carries an id, this stays true through
the matching phase (newly consumed blobs are stamped as they are
consumed). -/
theorem match_prevs_pid_some (ps : List PrevBlob) (bs : List Blob) (m : ℕ → Bool)
    (hinv : ∀ j b, bs.get? j = some b → m j = true → b.pid.isSome) :
    ∀ j b, (match_prevs ps bs m).1.get? j = some b →
      (match_prevs ps bs m).2 j = true → b.pid.isSome := by
  induction ps generalizing bs m with
  | nil => exact hinv
  | cons p ps ih =>
    cases hr : find_best p.center m bs 0 none with
    | none =>
      rw [match_prevs_cons_none p ps bs m hr]
      exact ih bs m hinv
    | some md =>
      rw [match_prevs_cons_some p ps bs m md hr]
      refine ih (set_pid p.id md.2 bs) (fun j => if j = md.2 then true else m j) ?_
      intro j b hj hm'
      by_cases hje : j = md.2
      · cases hb0 : bs.get? j with
        | none =>
          rw [hje] at hj hb0
          rw [List.get?_eq_none.2
            (by rw [set_pid_length]; exact List.get?_eq_none.1 hb0)] at hj
          cases hj
        | some b0 =>
          rw [hje] at hj hb0
          rw [set_pid_get_eq p.id md.2 bs b0 hb0] at hj
          cases Option.some.inj hj
          rfl
      · rw [set_pid_get_ne p.id md.2 bs j hje] at hj
        have hmj : m j = true := by simpa [hje] using hm'
        exact hinv j b hj hmj

/-! ### Lemmas about `assign_new` -/

theorem assign_new_nil (m : ℕ → Bool) (i c : ℕ) : assign_new [] m i c = ([], c) := rfl

theorem assign_new_cons (b : Blob) (bs : List Blob) (m : ℕ → Bool) (i c : ℕ) :
    assign_new (b :: bs) m i c =
      if m i then
        (b :: (assign_new bs m (i + 1) c).1, (assign_new bs m (i + 1) c).2)
      else
        (⟨b.cx, b.cy, b.blob_depth, b.contour, some (c + 1)⟩ ::
            (assign_new bs m (i + 1) (c + 1)).1,
          (assign_new bs m (i + 1) (c + 1)).2) := rfl

theorem assign_new_length (bs : List Blob) (m : ℕ → Bool) (i c : ℕ) :
    (assign_new bs m i c).1.length = bs.length := by
  induction bs generalizing i c with
  | nil => rfl
  | cons b bs ih =>
    rw [assign_new_cons]
    by_cases hm : m i <;> simp [hm, ih]

theorem assign_new_counter_mono (bs : List Blob) (m : ℕ → Bool) (i c : ℕ) :
    c ≤ (assign_new bs m i c).2 := by
  induction bs generalizing i c with
  | nil => exact le_rfl
  | cons b bs ih =>
    rw [assign_new_cons]
    by_cases hm : m i
    · simpa [hm] using ih (i + 1) c
    · simp only [hm, if_false]
      exact (Nat.le_succ c).trans (ih (i + 1) (c + 1))

theorem assign_new_geom (bs : List Blob) (m : ℕ → Bool) (i c j : ℕ) :
    ((assign_new bs m i c).1.get? j).map Blob.geom = (bs.get? j).map Blob.geom := by
  induction bs generalizing i c j with
  | nil => rfl
  | cons b bs ih =>
    rw [assign_new_cons]
    by_cases hm : m i
    · rw [if_pos hm]
      cases j with
      | zero => rfl
      | succ j => simpa using ih (i + 1) c j
    · rw [if_neg hm]
      cases j with
      | zero => rfl
      | succ j => simpa using ih (i + 1) (c + 1) j

/-- Consumed (matched) blobs pass through the fresh-id phase untouched. -/
theorem assign_new_matched (bs : List Blob) (m : ℕ → Bool) (i c j : ℕ) (b : Blob)
    (hm : m (i + j) = true) (hj : bs.get? j = some b) :
    (assign_new bs m i c).1.get? j = some b := by
  induction bs generalizing i c j with
  | nil => cases hj
  | cons hd bs ih =>
    rw [assign_new_cons]
    cases j with
    | zero =>
      have hmi : m i = true := by simpa using hm
      rw [if_pos hmi]
      simpa using hj
    | succ j =>
      have hm' : m (i + 1 + j) = true := by
        rw [show i + 1 + j = i + (j + 1) by omega]
        exact hm
      have hj' : bs.get? j = some b := by simpa using hj
      by_cases hmi : m i
      · rw [if_pos hmi]
        simpa using ih (i + 1) c j hm' hj'
      · rw [if_neg hmi]
        simpa using ih (i + 1) (c + 1) j hm' hj'

/-- Every unmatched blob comes out of the fresh-id phase with an id
strictly above the counter it started from and at most the final
counter. -/
theorem assign_new_unmatched (bs : List Blob) (m : ℕ → Bool) :
    ∀ (i c j : ℕ) (b' : Blob),
    (assign_new bs m i c).1.get? j = some b' → m (i + j) = false →
    ∃ n, b'.pid = some n ∧ c < n ∧ n ≤ (assign_new bs m i c).2 := by
  induction bs with
  | nil => intro i c j b' hj; cases hj
  | cons hd bs ih =>
    intro i c j b' hj hm
    rw [assign_new_cons] at hj ⊢
    cases j with
    | zero =>
      have hmi : m i = false := by simpa using hm
      rw [if_neg (by simp [hmi])] at hj ⊢
      obtain rfl : (⟨hd.cx, hd.cy, hd.blob_depth, hd.contour, some (c + 1)⟩ : Blob) = b' := by
        simpa using hj
      exact ⟨c + 1, rfl, Nat.lt_succ_self c,
        by simpa using assign_new_counter_mono bs m (i + 1) (c + 1)⟩
    | succ j =>
      have hm' : m (i + 1 + j) = false := by
        rw [show i + 1 + j = i + (j + 1) by omega]
        exact hm
      by_cases hmi : m i
      · rw [if_pos hmi] at hj ⊢
        obtain ⟨n, h1, h2, h3⟩ := ih (i + 1) c j b' (by simpa using hj) hm'
        exact ⟨n, h1, h2, by simpa using h3⟩
      · rw [if_neg hmi] at hj ⊢
        obtain ⟨n, h1, h2, h3⟩ := ih (i + 1) (c + 1) j b' (by simpa using hj) hm'
        exact ⟨n, h1, by omega, by simpa using h3⟩

/-- Fresh ids are handed out in strictly increasing order along the
frame: an unmatched blob at a smaller index gets a strictly smaller new
id than an unmatched blob at a larger index. -/
theorem assign_new_increasing (bs : List Blob) (m : ℕ → Bool) :
    ∀ (i c j₁ j₂ : ℕ) (b₁ b₂ : Blob), j₁ < j₂ →
    (assign_new bs m i c).1.get? j₁ = some b₁ →
    (assign_new bs m i c).1.get? j₂ = some b₂ →
    m (i + j₁) = false → m (i + j₂) = false →
    ∃ n₁ n₂, b₁.pid = some n₁ ∧ b₂.pid = some n₂ ∧ n₁ < n₂ := by
  induction bs with
  | nil => intro i c j₁ j₂ b₁ b₂ _ h₁; cases h₁
  | cons hd bs ih =>
    intro i c j₁ j₂ b₁ b₂ hlt h₁ h₂ hm₁ hm₂
    rw [assign_new_cons] at h₁ h₂
    obtain ⟨j₂', rfl⟩ : ∃ j₂', j₂ = j₂' + 1 := ⟨j₂ - 1, by omega⟩
    have hm₂' : m (i + 1 + j₂') = false := by
      rw [show i + 1 + j₂' = i + (j₂' + 1) by omega]
      exact hm₂
    cases j₁ with
    | zero =>
      have hmi : m i = false := by simpa using hm₁
      rw [if_neg (by simp [hmi])] at h₁ h₂
      obtain rfl : (⟨hd.cx, hd.cy, hd.blob_depth, hd.contour, some (c + 1)⟩ : Blob) = b₁ := by
        simpa using h₁
      obtain ⟨n₂, hn1, hn2, _⟩ :=
        assign_new_unmatched bs m (i + 1) (c + 1) j₂' b₂ (by simpa using h₂) hm₂'
      exact ⟨c + 1, n₂, rfl, hn1, hn2⟩
    | succ j₁' =>
      have hm₁' : m (i + 1 + j₁') = false := by
        rw [show i + 1 + j₁' = i + (j₁' + 1) by omega]
        exact hm₁
      by_cases hmi : m i
      · rw [if_pos hmi] at h₁ h₂
        exact ih (i + 1) c j₁' j₂' b₁ b₂ (by omega)
          (by simpa using h₁) (by simpa using h₂) hm₁' hm₂'
      · rw [if_neg hmi] at h₁ h₂
        exact ih (i + 1) (c + 1) j₁' j₂' b₁ b₂ (by omega)
          (by simpa using h₁) (by simpa using h₂) hm₁' hm₂'

/-- If every blob already marked consumed carries an id, then after the
fresh-id phase every blob carries an id. -/
theorem assign_new_all_some (bs : List Blob) (m : ℕ → Bool) :
    ∀ (i c : ℕ),
    (∀ j b, bs.get? j = some b → m (i + j) = true → b.pid.isSome) →
    ∀ b' ∈ (assign_new bs m i c).1, b'.pid.isSome := by
  induction bs with
  | nil => intro i c _ b' hb'; cases hb'
  | cons hd bs ih =>
    intro i c hinv b' hb'
    rw [assign_new_cons] at hb'
    by_cases hmi : m i
    · rw [if_pos hmi] at hb'
      rcases List.mem_cons.1 (by simpa using hb') with rfl | hmem
      · exact hinv 0 b' (by simp) (by simpa using hmi)
      · exact ih (i + 1) c
          (fun j b hj hmj => hinv (j + 1) b (by simpa using hj)
            (by rw [show i + (j + 1) = i + 1 + j by omega]; exact hmj)) b' hmem
    · rw [if_neg hmi] at hb'
      rcases List.mem_cons.1 (by simpa using hb') with rfl | hmem
      · rfl
      · exact ih (i + 1) (c + 1)
          (fun j b hj hmj => hinv (j + 1) b (by simpa using hj)
            (by rw [show i + (j + 1) = i + 1 + j by omega]; exact hmj)) b' hmem

/-! ### The tracker theorems -/

/-- C10: the tracker returns a list of the same length in the same order
whose elements carry exactly the geometry (centroid, depth-at-centroid,
contour) of the corresponding input elements, and every output element
carries an attached id. -/
theorem C10_tracker_preserves_geometry (st : TrackState) (current : List Blob) :
    (track_people st current).2.length = current.length ∧
    (∀ j, ((track_people st current).2.get? j).map Blob.geom =
      (current.get? j).map Blob.geom) ∧
    (∀ b ∈ (track_people st current).2, b.pid.isSome) := by
  refine ⟨?_, ?_, ?_⟩
  · show (assign_new (match_prevs st.previous_blobs current (fun _ => false)).1
        (match_prevs st.previous_blobs current (fun _ => false)).2
        0 st.person_counter).1.length = current.length
    rw [assign_new_length, match_prevs_length]
  · intro j
    exact (assign_new_geom _ _ 0 _ j).trans
      (match_prevs_geom st.previous_blobs current (fun _ => false) j)
  · intro b hb
    refine assign_new_all_some _ _ 0 st.person_counter ?_ b hb
    intro j b' hj hmj
    refine match_prevs_pid_some st.previous_blobs current (fun _ => false) ?_ j b' hj
      (by simpa using hmj)
    intro _ _ _ hfalse
    cases hfalse

/-- Witness for `C10_tracker_preserves_geometry`: one previous entity at
`(0,0)` with id `1` and one blob at `(5,0)`; the output keeps the blob's
geometry and attaches id `1`. -/
theorem C10_witness :
    (track_people ⟨[⟨(0, 0), 1⟩], 1⟩
        [⟨5, 0, 1000, ⟨6000, 10, 500, 500⟩, none⟩]).2.length = 1 ∧
    (⟨5, 0, 1000, ⟨6000, 10, 500, 500⟩, some 1⟩ : Blob).pid.isSome :=
  ⟨(C10_tracker_preserves_geometry ⟨[⟨(0, 0), 1⟩], 1⟩
      [⟨5, 0, 1000, ⟨6000, 10, 500, 500⟩, none⟩]).1,
   (C10_tracker_preserves_geometry ⟨[⟨(0, 0), 1⟩], 1⟩
      [⟨5, 0, 1000, ⟨6000, 10, 500, 500⟩, none⟩]).2.2
    ⟨5, 0, 1000, ⟨6000, 10, 500, 500⟩, some 1⟩
    (by rw [show (track_people ⟨[⟨(0, 0), 1⟩], 1⟩
        [⟨5, 0, 1000, ⟨6000, 10, 500, 500⟩, none⟩]).2 =
        [⟨5, 0, 1000, ⟨6000, 10, 500, 500⟩, some 1⟩] from rfl]; simp)⟩

/-- C2: every blob strictly more than the threshold away from every
previous entity gets a brand-new id strictly above the previous counter
value and at most the updated counter, and two such blobs in the same
frame get distinct ids. -/
theorem C2_fresh_ids (st : TrackState) (current : List Blob) (i j : ℕ) (hij : i ≠ j)
    (hi : i < current.length) (hj : j < current.length)
    (hfari : ∀ p ∈ st.previous_blobs, ∀ b, current.get? i = some b →
      10000 < dist2 p.center b.center)
    (hfarj : ∀ p ∈ st.previous_blobs, ∀ b, current.get? j = some b →
      10000 < dist2 p.center b.center) :
    ∃ ni nj, ((track_people st current).2.get? i).map Blob.pid = some (some ni) ∧
      ((track_people st current).2.get? j).map Blob.pid = some (some nj) ∧
      ni ≠ nj ∧ st.person_counter < ni ∧ st.person_counter < nj ∧
      ni ≤ (track_people st current).1.person_counter ∧
      nj ≤ (track_people st current).1.person_counter := by
  have hmpi := match_prevs_far st.previous_blobs current (fun _ => false) i
    (fun p hp b hb hlt => absurd hlt (by have := hfari p hp b hb; omega)) rfl
  have hmpj := match_prevs_far st.previous_blobs current (fun _ => false) j
    (fun p hp b hb hlt => absurd hlt (by have := hfarj p hp b hb; omega)) rfl
  have hout : (track_people st current).2 =
      (assign_new (match_prevs st.previous_blobs current (fun _ => false)).1
        (match_prevs st.previous_blobs current (fun _ => false)).2
        0 st.person_counter).1 := rfl
  have hctr : (track_people st current).1.person_counter =
      (assign_new (match_prevs st.previous_blobs current (fun _ => false)).1
        (match_prevs st.previous_blobs current (fun _ => false)).2
        0 st.person_counter).2 := rfl
  have hleni : i < (track_people st current).2.length := by
    rw [hout, assign_new_length, match_prevs_length]
    exact hi
  have hlenj : j < (track_people st current).2.length := by
    rw [hout, assign_new_length, match_prevs_length]
    exact hj
  have hbi : (track_people st current).2.get? i =
      some ((track_people st current).2.get ⟨i, hleni⟩) := List.get?_eq_get hleni
  have hbj : (track_people st current).2.get? j =
      some ((track_people st current).2.get ⟨j, hlenj⟩) := List.get?_eq_get hlenj
  have hmfi : (match_prevs st.previous_blobs current (fun _ => false)).2 (0 + i) = false := by
    simpa using hmpi.2
  have hmfj : (match_prevs st.previous_blobs current (fun _ => false)).2 (0 + j) = false := by
    simpa using hmpj.2
  obtain ⟨ni, hpni, hcni, hfni⟩ := assign_new_unmatched
    (match_prevs st.previous_blobs current (fun _ => false)).1
    (match_prevs st.previous_blobs current (fun _ => false)).2
    0 st.person_counter i _ (by rw [← hout]; exact hbi) hmfi
  obtain ⟨nj, hpnj, hcnj, hfnj⟩ := assign_new_unmatched
    (match_prevs st.previous_blobs current (fun _ => false)).1
    (match_prevs st.previous_blobs current (fun _ => false)).2
    0 st.person_counter j _ (by rw [← hout]; exact hbj) hmfj
  have hne : ni ≠ nj := by
    rcases lt_or_gt_of_ne hij with hlt | hgt
    · obtain ⟨n₁, n₂, hp1, hp2, hnn⟩ := assign_new_increasing
        (match_prevs st.previous_blobs current (fun _ => false)).1
        (match_prevs st.previous_blobs current (fun _ => false)).2
        0 st.person_counter i j _ _ hlt (by rw [← hout]; exact hbi) (by rw [← hout]; exact hbj) hmfi hmfj
      have e1 : ni = n₁ := Option.some.inj (hpni.symm.trans hp1)
      have e2 : nj = n₂ := Option.some.inj (hpnj.symm.trans hp2)
      omega
    · obtain ⟨n₁, n₂, hp1, hp2, hnn⟩ := assign_new_increasing
        (match_prevs st.previous_blobs current (fun _ => false)).1
        (match_prevs st.previous_blobs current (fun _ => false)).2
        0 st.person_counter j i _ _ hgt (by rw [← hout]; exact hbj) (by rw [← hout]; exact hbi) hmfj hmfi
      have e1 : nj = n₁ := Option.some.inj (hpnj.symm.trans hp1)
      have e2 : ni = n₂ := Option.some.inj (hpni.symm.trans hp2)
      omega
  refine ⟨ni, nj, ?_, ?_, hne, hcni, hcnj, by rw [hctr]; exact hfni, by rw [hctr]; exact hfnj⟩
  · rw [hbi, Option.map_some', hpni]
  · rw [hbj, Option.map_some', hpnj]

/-- Witness for `C2_fresh_ids`: one previous entity with id `1` at the
origin (counter `1`); two blobs at `(500,0)` and `(800,0)`, both far
beyond the threshold, get distinct fresh ids above `1`. -/
theorem C2_witness :
    ∃ ni nj,
      ((track_people ⟨[⟨(0, 0), 1⟩], 1⟩
          [⟨500, 0, 1000, ⟨6000, 10, 500, 500⟩, none⟩,
           ⟨800, 0, 1000, ⟨6000, 10, 500, 500⟩, none⟩]).2.get? 0).map Blob.pid =
        some (some ni) ∧
      ((track_people ⟨[⟨(0, 0), 1⟩], 1⟩
          [⟨500, 0, 1000, ⟨6000, 10, 500, 500⟩, none⟩,
           ⟨800, 0, 1000, ⟨6000, 10, 500, 500⟩, none⟩]).2.get? 1).map Blob.pid =
        some (some nj) ∧
      ni ≠ nj ∧ 1 < ni ∧ 1 < nj ∧
      ni ≤ (track_people ⟨[⟨(0, 0), 1⟩], 1⟩
          [⟨500, 0, 1000, ⟨6000, 10, 500, 500⟩, none⟩,
           ⟨800, 0, 1000, ⟨6000, 10, 500, 500⟩, none⟩]).1.person_counter ∧
      nj ≤ (track_people ⟨[⟨(0, 0), 1⟩], 1⟩
          [⟨500, 0, 1000, ⟨6000, 10, 500, 500⟩, none⟩,
           ⟨800, 0, 1000, ⟨6000, 10, 500, 500⟩, none⟩]).1.person_counter :=
  C2_fresh_ids ⟨[⟨(0, 0), 1⟩], 1⟩
    [⟨500, 0, 1000, ⟨6000, 10, 500, 500⟩, none⟩,
     ⟨800, 0, 1000, ⟨6000, 10, 500, 500⟩, none⟩] 0 1
    (by decide) (by decide) (by decide)
    (by
      intro p hp b hb
      obtain rfl : p = ⟨(0, 0), 1⟩ := List.mem_singleton.mp hp
      obtain rfl : (⟨500, 0, 1000, ⟨6000, 10, 500, 500⟩, none⟩ : Blob) = b :=
        Option.some.inj hb
      decide)
    (by
      intro p hp b hb
      obtain rfl : p = ⟨(0, 0), 1⟩ := List.mem_singleton.mp hp
      obtain rfl : (⟨800, 0, 1000, ⟨6000, 10, 500, 500⟩, none⟩ : Blob) = b :=
        Option.some.inj hb
      decide)

/-! ### Identity stability across a run -/

/-- The separation condition under which the greedy matcher provably
reattaches entity `e` to the blob at index `bi`: the blob is strictly
within the threshold of `e`, every other previous entity is at least the
threshold away from that blob (no earlier entity can steal it), and
every other blob is at least the threshold away from `e` (the entity
cannot prefer a different blob). -/
def IsolatedPair (st : TrackState) (frame : List Blob) (e : PrevBlob) (bi : ℕ) : Prop :=
  e ∈ st.previous_blobs ∧
  (∃ b, frame.get? bi = some b) ∧
  (∀ b, frame.get? bi = some b → dist2 e.center b.center < 10000) ∧
  (∀ p' ∈ st.previous_blobs, p' ≠ e → ∀ b, frame.get? bi = some b →
    ¬ dist2 p'.center b.center < 10000) ∧
  (∀ j b, frame.get? j = some b → j ≠ bi → ¬ dist2 e.center b.center < 10000)

/-- One frame of the matching step reattaches `e.id` to its isolated
blob. -/
theorem track_step_keeps_id (st : TrackState) (frame : List Blob) (e : PrevBlob) (bi : ℕ)
    (h : IsolatedPair st frame e bi) :
    ∃ b, (track_people st frame).2.get? bi = some b ∧ b.pid = some e.id := by
  obtain ⟨hmem, hex, hnear, hprevfar, hotherfar⟩ := h
  obtain ⟨b, hb, hpid, hmt⟩ := match_prevs_iso e bi st.previous_blobs frame
    (fun _ => false) hmem hex hnear hprevfar hotherfar rfl
  refine ⟨b, ?_, hpid⟩
  show (assign_new (match_prevs st.previous_blobs frame (fun _ => false)).1
      (match_prevs st.previous_blobs frame (fun _ => false)).2
      0 st.person_counter).1.get? bi = some b
  exact assign_new_matched _ _ 0 st.person_counter bi b (by simpa using hmt) hb

/-- A run in which some designated physical track (one blob index per
frame) stays isolated with entity id `I` at every frame: at each step
the designated blob is within the threshold of an entity carrying id
`I` in the current tracker state, and the separation conditions of
`IsolatedPair` hold. -/
inductive FollowsTrack (I : ℕ) : TrackState → List (List Blob × ℕ) → Prop
  | nil (st : TrackState) : FollowsTrack I st []
  | cons (st : TrackState) (f : List Blob × ℕ) (rest : List (List Blob × ℕ))
      (e : PrevBlob) (hid : e.id = I) (hiso : IsolatedPair st f.1 e f.2)
      (hrest : FollowsTrack I (track_people st f.1).1 rest) :
      FollowsTrack I st (f :: rest)

/-- The per-frame outputs of running the tracker over a list of frames. -/
def run_outputs (st : TrackState) : List (List Blob) → List (List Blob)
  | [] => []
  | f :: fs => (track_people st f).2 :: run_outputs (track_people st f).1 fs

/-- C1 (amended): over a whole continuous run, as long as the designated
track's blob stays strictly within the match threshold of its entity's
previous centroid, every other tracked entity stays at least the
threshold away from that blob, and every other blob stays at least the
threshold away from that entity, the per-frame matching step reattaches
the same id `I` to the track at every frame of the run. -/
theorem C1_identity_stable (I : ℕ) (st : TrackState) (frames : List (List Blob × ℕ))
    (h : FollowsTrack I st frames) :
    ∀ t fr, frames.get? t = some fr →
      ∃ out b, (run_outputs st (frames.map Prod.fst)).get? t = some out ∧
        out.get? fr.2 = some b ∧ b.pid = some I := by
  induction h with
  | nil st => intro t fr hfr; cases hfr
  | cons st f rest e hid hiso hrest ih =>
    intro t fr hfr
    cases t with
    | zero =>
      obtain rfl : f = fr := by simpa using hfr
      obtain ⟨b, hb, hpid⟩ := track_step_keeps_id st f.1 e f.2 hiso
      exact ⟨(track_people st f.1).2, b, rfl, hb, by rw [hpid, hid]⟩
    | succ t =>
      have hfr' : rest.get? t = some fr := by simpa using hfr
      obtain ⟨out, b, h1, h2, h3⟩ := ih t fr hfr'
      exact ⟨out, b, by simpa [run_outputs] using h1, h2, h3⟩

/-- Witness for `C1_identity_stable`: a two-frame run; entity `1` starts
at `(0,0)`, its blob moves to `(5,0)` in frame one and `(9,0)` in frame
two, each displacement far below the threshold; the track carries id `1`
in the second frame's output. -/
theorem C1_witness :
    ∃ out b,
      (run_outputs ⟨[⟨(0, 0), 1⟩], 1⟩
          [[⟨5, 0, 1000, ⟨6000, 10, 500, 500⟩, none⟩],
           [⟨9, 0, 1000, ⟨6000, 10, 500, 500⟩, none⟩]]).get? 1 = some out ∧
        out.get? 0 = some b ∧ b.pid = some 1 := by
  have iso1 : IsolatedPair ⟨[⟨(0, 0), 1⟩], 1⟩
      [⟨5, 0, 1000, ⟨6000, 10, 500, 500⟩, none⟩] ⟨(0, 0), 1⟩ 0 := by
    refine ⟨by simp, ⟨_, rfl⟩, ?_, ?_, ?_⟩
    · intro b hb
      obtain rfl : (⟨5, 0, 1000, ⟨6000, 10, 500, 500⟩, none⟩ : Blob) = b :=
        Option.some.inj hb
      decide
    · intro p' hp' hne
      exact absurd (List.mem_singleton.mp hp') hne
    · intro j b hb hj
      cases j with
      | zero => exact absurd rfl hj
      | succ j => simp at hb
  have iso2 : IsolatedPair ⟨[⟨(5, 0), 1⟩], 1⟩
      [⟨9, 0, 1000, ⟨6000, 10, 500, 500⟩, none⟩] ⟨(5, 0), 1⟩ 0 := by
    refine ⟨by simp, ⟨_, rfl⟩, ?_, ?_, ?_⟩
    · intro b hb
      obtain rfl : (⟨9, 0, 1000, ⟨6000, 10, 500, 500⟩, none⟩ : Blob) = b :=
        Option.some.inj hb
      decide
    · intro p' hp' hne
      exact absurd (List.mem_singleton.mp hp') hne
    · intro j b hb hj
      cases j with
      | zero => exact absurd rfl hj
      | succ j => simp at hb
  have hrun : FollowsTrack 1 ⟨[⟨(0, 0), 1⟩], 1⟩
      [([⟨5, 0, 1000, ⟨6000, 10, 500, 500⟩, none⟩], 0),
       ([⟨9, 0, 1000, ⟨6000, 10, 500, 500⟩, none⟩], 0)] := by
    refine FollowsTrack.cons _ _ _ ⟨(0, 0), 1⟩ rfl iso1 ?_
    rw [show (track_people ⟨[⟨(0, 0), 1⟩], 1⟩
        [⟨5, 0, 1000, ⟨6000, 10, 500, 500⟩, none⟩]).1 =
        ⟨[⟨(5, 0), 1⟩], 1⟩ from rfl]
    exact FollowsTrack.cons _ _ _ ⟨(5, 0), 1⟩ rfl iso2 (FollowsTrack.nil _)
  exact C1_identity_stable 1 ⟨[⟨(0, 0), 1⟩], 1⟩ _ hrun 1
    ([⟨9, 0, 1000, ⟨6000, 10, 500, 500⟩, none⟩], 0) rfl

/-! ## Fade-cycle opacity

`get_current_opacity` (`ghost_tracker_fixed.py:173-190`, identical in
`simple_person_ghost.py:325-343`), with `self.ghost_alpha = 0.7` from
`__init__` and the fade data written by `assign_ghost_to_person`
(`cycle_time = random.uniform(0.5, 2.0)`, `min_opacity = 0.4`,
`max_opacity = 0.8`):

```python
if person_id not in self.person_fade_data:
    return self.ghost_alpha
fade_data = self.person_fade_data[person_id]
elapsed = time.time() - fade_data['start_time']
cycle_position = (elapsed % fade_data['cycle_time']) / fade_data['cycle_time']
sine_value = (np.sin(cycle_position * 2 * np.pi) + 1) / 2
opacity = fade_data['min_opacity'] + sine_value * (fade_data['max_opacity'] - fade_data['min_opacity'])
return opacity
```

Wall-clock `time.time()` is passed in as the parameter `now`; the method
only reads `self.person_fade_data`, so it is modelled as also returning
the (unchanged) map. -/

/-- One entity's fade-cycle data. -/
structure FadeData where
  cycle_time : ℝ
  start_time : ℝ
  min_opacity : ℝ
  max_opacity : ℝ

/-- Python float `%` for a positive modulus: `x % y = x - y * ⌊x / y⌋`. -/
noncomputable def pymod (x y : ℝ) : ℝ := x - y * ⌊x / y⌋

/-- The sinusoidal fade evaluated at wall-clock time `now`. -/
noncomputable def fadeOpacity (fd : FadeData) (now : ℝ) : ℝ :=
  let elapsed := now - fd.start_time
  let cycle_position := pymod elapsed fd.cycle_time / fd.cycle_time
  let sine_value := (Real.sin (cycle_position * (2 * Real.pi)) + 1) / 2
  fd.min_opacity + sine_value * (fd.max_opacity - fd.min_opacity)

/-- `self.ghost_alpha = 0.7`. -/
noncomputable def ghost_alpha : ℝ := 0.7

/-- `get_current_opacity`, returning the opacity together with the
(unchanged) fade-data map. -/
noncomputable def get_current_opacity (fade : ℕ → Option FadeData) (person_id : ℕ)
    (now : ℝ) : ℝ × (ℕ → Option FadeData) :=
  match fade person_id with
  | none => (ghost_alpha, fade)
  | some fd => (fadeOpacity fd now, fade)

/-- The shape of every fade record written by `assign_ghost_to_person`:
`cycle_time` drawn uniformly from `[0.5, 2.0]`, fixed opacity bounds
`0.4` and `0.8`. -/
def AssignedFade (fd : FadeData) : Prop :=
  1 / 2 ≤ fd.cycle_time ∧ fd.cycle_time ≤ 2 ∧
    fd.min_opacity = 2 / 5 ∧ fd.max_opacity = 4 / 5

/-- Python `%` with the divisor added to the dividend is unchanged. -/
theorem pymod_add_self (x y : ℝ) (hy : y ≠ 0) : pymod (x + y) y = pymod x y := by
  rw [pymod, pymod, add_div, div_self hy, Int.floor_add_one]
  push_cast
  ring

/-- C6: for an assigned fade cycle, the opacity stays within
`[min_opacity, max_opacity]` at every time `t` and is periodic with
period `fade_period = cycle_time`. -/
theorem C6_opacity_bounded_periodic (fade : ℕ → Option FadeData) (person_id : ℕ)
    (fd : FadeData) (t : ℝ) (hfd : fade person_id = some fd) (ha : AssignedFade fd) :
    (get_current_opacity fade person_id t).1 ∈
      Set.Icc fd.min_opacity fd.max_opacity ∧
    (get_current_opacity fade person_id (t + fd.cycle_time)).1 =
      (get_current_opacity fade person_id t).1 := by
  obtain ⟨hc1, _, hmin, hmax⟩ := ha
  have hc : 0 < fd.cycle_time := by linarith
  have hmm : fd.min_opacity ≤ fd.max_opacity := by rw [hmin, hmax]; norm_num
  have hval : ∀ u : ℝ, (get_current_opacity fade person_id u).1 = fadeOpacity fd u := by
    intro u
    rw [get_current_opacity, hfd]
  rw [hval, hval]
  constructor
  · set s : ℝ :=
      (Real.sin (pymod (t - fd.start_time) fd.cycle_time / fd.cycle_time *
        (2 * Real.pi)) + 1) / 2 with hs
    have hs0 : 0 ≤ s := by
      have := Real.neg_one_le_sin (pymod (t - fd.start_time) fd.cycle_time /
        fd.cycle_time * (2 * Real.pi))
      rw [hs]
      linarith
    have hs1 : s ≤ 1 := by
      have := Real.sin_le_one (pymod (t - fd.start_time) fd.cycle_time /
        fd.cycle_time * (2 * Real.pi))
      rw [hs]
      linarith
    constructor
    · have : 0 ≤ s * (fd.max_opacity - fd.min_opacity) :=
        mul_nonneg hs0 (sub_nonneg.2 hmm)
      rw [fadeOpacity]
      nlinarith
    · rw [fadeOpacity]
      nlinarith [mul_le_of_le_one_left (sub_nonneg.2 hmm) hs1]
  · rw [fadeOpacity, fadeOpacity,
      show t + fd.cycle_time - fd.start_time = (t - fd.start_time) + fd.cycle_time by ring,
      pymod_add_self _ _ (ne_of_gt hc)]

/-- Witness for `C6_opacity_bounded_periodic` at the fade record
`cycle_time = 1, start_time = 0, min = 0.4, max = 0.8` and `t = 0`. -/
theorem C6_witness :
    (get_current_opacity (fun _ => some ⟨1, 0, 2 / 5, 4 / 5⟩) 0 0).1 ∈
      Set.Icc ((2 : ℝ) / 5) (4 / 5) ∧
    (get_current_opacity (fun _ => some ⟨1, 0, 2 / 5, 4 / 5⟩) 0 (0 + 1)).1 =
      (get_current_opacity (fun _ => some ⟨1, 0, 2 / 5, 4 / 5⟩) 0 0).1 :=
  C6_opacity_bounded_periodic (fun _ => some ⟨1, 0, 2 / 5, 4 / 5⟩) 0
    ⟨1, 0, 2 / 5, 4 / 5⟩ 0 rfl (by norm_num [AssignedFade])

/-- C9: for an id with no assigned fade data, `get_current_opacity`
returns the fixed default `ghost_alpha = 0.7` and leaves the fade-data
map unchanged. -/
theorem C9_default_opacity (fade : ℕ → Option FadeData) (person_id : ℕ) (now : ℝ)
    (h : fade person_id = none) :
    get_current_opacity fade person_id now = (ghost_alpha, fade) ∧
      ghost_alpha = 7 / 10 := by
  constructor
  · rw [get_current_opacity, h]
  · rw [ghost_alpha]
    norm_num

/-- Witness for `C9_default_opacity` on the empty fade map. -/
theorem C9_witness :
    get_current_opacity (fun _ => none) 0 0 = (ghost_alpha, fun _ => none) ∧
      ghost_alpha = 7 / 10 :=
  C9_default_opacity (fun _ => none) 0 0 rfl

end KinectArt
